import Mathlib

/-!
Verification of the streaming-generation core of LLaMA2-Accessory.

Text is modelled as `List Char` (Python `str`), token ids as `Nat`, exact
probabilities as `ℚ`.  The embedded functions follow the Python source:

* `MetaModel.stream_generate` and `MetaModel.sample_top_p`
  (accessory/model/meta.py),
* the stream-trimming worker loop and the orchestrator relay loop
  (accessory/demos/multi_turn_mm.py),
* `Conversation.process` and `Conversation.get_prompt`
  (accessory/data/conversation/lib.py).

A Python generator is embedded as a pair: the list of values it `yield`s to
an iterating consumer, together with the value carried by its final
`return` statement (the `StopIteration` value, which a plain `for` loop
never observes).
-/

/-- A streamed partial decode event: `{"text": ..., "end_of_content": ...}`. -/
structure PartialResult where
  text : List Char
  end_of_content : Bool
deriving DecidableEq, Repr

/-- Python `str.find`: index of the first occurrence of `pat` in `hay`,
`none` when absent (Python returns `-1`). -/
def findSub (hay pat : List Char) : Option Nat :=
  if pat.isPrefixOf hay then some 0
  else
    match hay with
    | [] => none
    | _ :: t => (findSub t pat).map (· + 1)

/-- Python `str.rstrip()`: drop trailing whitespace. -/
def rstrip (s : List Char) : List Char :=
  (s.reverse.dropWhile Char.isWhitespace).reverse

/-- The stream-trimming transformation applied by `model_worker`
(multi_turn_mm.py lines 112-126) to each event of the generator: if the
separator occurs in the text, truncate there, right-strip, append a newline
and mark terminal; otherwise, for a non-terminal event, suppress it when the
text is shorter than the separator, else emit the text with its last
`len(conv_sep)` characters removed. -/
def stream_trim (conv_sep : List Char) (e : PartialResult) : Option PartialResult :=
  let e1 : PartialResult :=
    match findSub e.text conv_sep with
    | some endPos => ⟨rstrip (e.text.take endPos) ++ ['\n'], true⟩
    | none => e
  if e1.end_of_content then some e1
  else if e1.text.length < conv_sep.length then none
  else some ⟨e1.text.take (e1.text.length - conv_sep.length), false⟩

/-- The emission loop of `model_worker` (multi_turn_mm.py lines 108-132):
each generator event is trimmed; suppressed events are skipped (`continue`),
others are put on the response queue, and the loop breaks after the first
terminal emission. Returns the list of events put on the queue. -/
def worker_emit (conv_sep : List Char) : List PartialResult → List PartialResult
  | [] => []
  | e :: rest =>
    match stream_trim conv_sep e with
    | none => worker_emit conv_sep rest
    | some e1 => if e1.end_of_content then [e1] else e1 :: worker_emit conv_sep rest

/-- A message posted on the shared response queue of the demo:
a `Ready()` marker, a `ModelFailure()` marker, or a streamed content piece. -/
inductive WorkerMsg where
  | ready : WorkerMsg
  | failure : WorkerMsg
  | content : PartialResult → WorkerMsg
deriving DecidableEq, Repr

/-- A Python exception raised by the embedded code. -/
inductive PyExc where
  | assertionError : PyExc
  | attributeError : PyExc
  | runtimeError : PyExc
  | typeError : PyExc
deriving DecidableEq, Repr

/-- How the orchestrator's relay loop in `gradio_worker.stream_model_output`
ends: a terminal content piece arrived (`completed`), a `ModelFailure` marker
arrived (`failed`, the loop raises `RuntimeError`), a `Ready` marker arrived
(`crashed`, subscripting it raises `TypeError`), or the queue is exhausted
and `response_queue.get()` blocks forever (`blocked`). -/
inductive RelayEnd where
  | completed : RelayEnd
  | failed : RelayEnd
  | crashed : RelayEnd
  | blocked : RelayEnd
deriving DecidableEq, Repr

/-- The relay loop of `gradio_worker.stream_model_output`
(multi_turn_mm.py lines 162-169): read items off the shared response queue,
raise `RuntimeError` on a `ModelFailure`, otherwise show the item's text and
stop after the first terminal item. Returns the texts shown to the external
caller, in order, together with how the loop ended. -/
def relay_stream : List WorkerMsg → List (List Char) × RelayEnd
  | [] => ([], RelayEnd.blocked)
  | WorkerMsg.failure :: _ => ([], RelayEnd.failed)
  | WorkerMsg.ready :: _ => ([], RelayEnd.crashed)
  | WorkerMsg.content pr :: rest =>
    if pr.end_of_content then ([pr.text], RelayEnd.completed)
    else (pr.text :: (relay_stream rest).1, (relay_stream rest).2)

/-- The per-rank response-queue assignment of the demo's main block
(multi_turn_mm.py line 297): only rank 0 receives the shared response queue,
every other rank receives `None`. -/
def rank_response_queue (rank : Nat) (q : List WorkerMsg) : Option (List WorkerMsg) :=
  if rank = 0 then some q else none

/-- The exception handler of `model_worker` (multi_turn_mm.py lines 133-134):
`except Exception: response_queue.put(ModelFailure())`. When the worker's
`response_queue` is `None` (every non-primary rank), evaluating
`None.put(...)` itself raises `AttributeError`; otherwise the `ModelFailure`
marker is appended to the queue. -/
def worker_handle_exception (response_queue : Option (List WorkerMsg)) :
    Except PyExc (List WorkerMsg) :=
  match response_queue with
  | some q => Except.ok (q ++ [WorkerMsg.failure])
  | none => Except.error PyExc.attributeError

/-- Python tail slice `l[-m:]` for an arbitrary integer `m`: for `m > 0` the
last `min m (len l)` elements; for `m ≤ 0` it is `l[(-m):]`, dropping the
first `-m` elements (in particular `l[-0:] = l`). -/
def pyTailSlice (l : List Nat) (m : Int) : List Nat :=
  if 0 < m then l.drop (l.length - m.toNat) else l.drop (-m).toNat

/-- The initialisation of `MetaModel.stream_generate`
(meta.py lines 310-323): reduce the context window by the image-token count
when an image is present, truncate the prompt from the left with the slice
`prompt_tokens[-(max_seq_len - max_gen_len):]`, and compute
`total_len = min(max_seq_len, max_gen_len + len(prompt_tokens))`. Returns
the truncated prompt together with `total_len`. No validation of
`max_gen_len` is performed. -/
def stream_gen_init (prompt_tokens : List Nat) (has_image : Bool)
    (image_words max_seq_len max_gen_len : Nat) : List Nat × Int :=
  let msl : Int := (max_seq_len : Int) - (if has_image then (image_words : Int) else 0)
  let max_prompt_size : Int := msl - (max_gen_len : Int)
  let pt := pyTailSlice prompt_tokens max_prompt_size
  (pt, min msl ((max_gen_len : Int) + (pt.length : Int)))

/-- The scan over `additional_stop_symbols` in `stream_generate`
(meta.py lines 348-352): position of the first stop symbol found in the
generated text, taking the symbols in order. -/
def first_stop (stops : List (List Char)) (generated : List Char) : Option Nat :=
  match stops with
  | [] => none
  | s :: rest =>
    match findSub generated s with
    | some pos => some pos
    | none => first_stop rest generated

/-- The decode loop of `MetaModel.stream_generate` (meta.py lines 331-357).
The model forward pass and sampling are abstracted by `nextTok`, mapping the
cursor position to the sampled token id, and detokenization by `decode`.
`gen` holds `tokens[start_pos:generate_until]` and `remaining` counts the
loop iterations left (`total_len - cur_pos`). The result is the pair of the
list of `yield`ed events and the value of the generator's final `return`
statement (its `StopIteration` value): on an end-of-sequence token or on a
stop symbol the loop returns without yielding the terminal event. -/
def stream_gen_loop (nextTok : Nat → Nat) (decode : List Nat → List Char)
    (eos_id : Nat) (stops : List (List Char)) :
    List Nat → Nat → Nat → List PartialResult × PartialResult
  | gen, _, 0 => ([], ⟨decode gen, true⟩)
  | gen, curPos, remaining + 1 =>
    let t := nextTok curPos
    if t = eos_id then ([], ⟨decode gen, true⟩)
    else
      let gen' := gen ++ [t]
      let generated := decode gen'
      match first_stop stops generated with
      | some pos => ([], ⟨generated.take pos, true⟩)
      | none =>
        let r := stream_gen_loop nextTok decode eos_id stops gen' (curPos + 1) remaining
        (⟨generated, false⟩ :: r.1, r.2)

/-- `MetaModel.stream_generate` (meta.py lines 300-357): initialisation
followed by the decode loop, started with an empty generated window at
cursor `start_pos = len(prompt_tokens)`. Returns the yielded events and the
generator's return value. -/
def stream_generate (nextTok : Nat → Nat) (decode : List Nat → List Char)
    (eos_id : Nat) (stops : List (List Char)) (prompt_tokens : List Nat)
    (has_image : Bool) (image_words max_seq_len max_gen_len : Nat) :
    List PartialResult × PartialResult :=
  let init := stream_gen_init prompt_tokens has_image image_words max_seq_len max_gen_len
  let start_pos := init.1.length
  stream_gen_loop nextTok decode eos_id stops [] start_pos
    (init.2 - (start_pos : Int)).toNat

/-- Running cumulative sums with initial accumulator `acc`
(`torch.cumsum` semantics, inclusive). -/
def cumsumAux (acc : ℚ) : List ℚ → List ℚ
  | [] => []
  | x :: t => (acc + x) :: cumsumAux (acc + x) t

/-- `torch.cumsum(probs_sort, dim=-1)`. -/
def cumsum (l : List ℚ) : List ℚ := cumsumAux 0 l

/-- `torch.sort(probs, descending=True)`: stable descending sort. -/
def sortDesc (l : List ℚ) : List ℚ := l.insertionSort (· ≥ ·)

/-- The nucleus filter of `MetaModel.sample_top_p` (meta.py lines 360-365):
sort descending, compute cumulative sums, and zero out every entry whose
cumulative sum minus the entry itself exceeds `p` (`mask = probs_sum -
probs_sort > p`). Returns the list of kept (non-zeroed) entries. -/
def top_p_kept (probs : List ℚ) (p : ℚ) : List ℚ :=
  let sorted := sortDesc probs
  ((cumsum sorted).zip sorted).filterMap
    (fun sx => if sx.1 - sx.2 > p then none else some sx.2)

/-- Helper recursion equivalent to `top_p_kept` on an already-sorted list:
an entry is kept exactly when the sum `acc` of the entries before it is at
most `p`. -/
def keptAux (p : ℚ) (acc : ℚ) : List ℚ → List ℚ
  | [] => []
  | x :: t => if acc > p then keptAux p (acc + x) t else x :: keptAux p (acc + x) t

/-- Separator styles of accessory/data/conversation/lib.py. -/
inductive SeparatorStyle where
  | SINGLE : SeparatorStyle
  | TWO : SeparatorStyle
deriving DecidableEq, Repr

/-- A conversation turn: role paired with an optional message
(`None` models Python `None`; multimodal tuple messages are out of scope). -/
abbrev Turn := List Char × Option (List Char)

/-- The `Conversation` dataclass of accessory/data/conversation/lib.py. -/
structure Conversation where
  system : List Char
  roles : List Char × List Char
  messages : List Turn
  sep_style : SeparatorStyle
  sep : List Char
  sep2 : List Char
  version : List Char
  skip_next : Bool
deriving DecidableEq, Repr

/-- The training-target string built for an assistant turn in
`Conversation.process`: `message + separator-part`, with a leading space
when `space_part_of_next_word` is set. -/
def to_predict_value (flag : Bool) (msg sepPart : List Char) : List Char :=
  (if flag then [' '] else []) ++ msg ++ sepPart

/-- The `SINGLE`-style loop of `Conversation.process` (lib.py lines 27-43).
`asst` is `roles[1]`, `n` is `len(messages)` and `i` the loop index. A turn
with a present message appends `" " + role + ": " + message + "\n" + sep`;
a turn with message `None` asserts `i == len(messages) - 1`
(`AssertionError` otherwise) and appends `" " + role + ":"`, plus a space
when `space_part_of_next_word` is false. -/
def process_single_aux (asst sep : List Char) (flag : Bool) (n : Nat) :
    Nat → List Turn → Except PyExc (List Char × List (List Char))
  | _, [] => Except.ok ([], [])
  | i, (role, some msg) :: rest =>
    match process_single_aux asst sep flag n (i + 1) rest with
    | Except.error e => Except.error e
    | Except.ok (r, l) =>
      Except.ok ((' ' :: role ++ ':' :: ' ' :: msg ++ '\n' :: sep) ++ r,
        (if role = asst then [to_predict_value flag msg ('\n' :: sep)] else []) ++ l)
  | i, (role, none) :: rest =>
    if i = n - 1 then
      match process_single_aux asst sep flag n (i + 1) rest with
      | Except.error e => Except.error e
      | Except.ok (r, l) =>
        Except.ok ((' ' :: role ++ [':']) ++ (if flag then [] else [' ']) ++ r, l)
    else Except.error PyExc.assertionError

/-- Python truthiness of an optional string (`if message:`):
false for `None` and for the empty string. -/
def msg_truthy : Option (List Char) → Bool
  | none => false
  | some s => !s.isEmpty

/-- The `TWO`-style loop of `Conversation.process` (lib.py lines 44-61).
Separators alternate by turn parity (`seps[i % 2]`); the message test is
Python truthiness (`if message:`), so an empty-string message is handled by
the `None` branch. -/
def process_two_aux (asst sep sep2 : List Char) (flag : Bool) (n : Nat) :
    Nat → List Turn → Except PyExc (List Char × List (List Char))
  | _, [] => Except.ok ([], [])
  | i, (role, m) :: rest =>
    if msg_truthy m then
      match process_two_aux asst sep sep2 flag n (i + 1) rest with
      | Except.error e => Except.error e
      | Except.ok (r, l) =>
        let msg := m.getD []
        let sepI := if i % 2 = 0 then sep else sep2
        Except.ok ((' ' :: role ++ ':' :: ' ' :: msg ++ sepI) ++ r,
          (if role = asst then [to_predict_value flag msg sepI] else []) ++ l)
    else
      if i = n - 1 then
        match process_two_aux asst sep sep2 flag n (i + 1) rest with
        | Except.error e => Except.error e
        | Except.ok (r, l) =>
          Except.ok ((' ' :: role ++ [':']) ++ (if flag then [] else [' ']) ++ r, l)
      else Except.error PyExc.assertionError

/-- `Conversation.process` (lib.py lines 25-69): renders the turn history
into the full conversation text plus the list of training-target strings.
For `SINGLE` style the prompt starts with `system + "\n\n" + sep`, for `TWO`
style with `system + sep`. -/
def Conversation.process (c : Conversation) (flag : Bool) :
    Except PyExc (List Char × List (List Char)) :=
  match c.sep_style with
  | SeparatorStyle.SINGLE =>
    match process_single_aux c.roles.2 c.sep flag c.messages.length 0 c.messages with
    | Except.error e => Except.error e
    | Except.ok (r, l) => Except.ok (c.system ++ '\n' :: '\n' :: c.sep ++ r, l)
  | SeparatorStyle.TWO =>
    match process_two_aux c.roles.2 c.sep c.sep2 flag c.messages.length 0 c.messages with
    | Except.error e => Except.error e
    | Except.ok (r, l) => Except.ok (c.system ++ c.sep ++ r, l)

/-- Modelled from the spec: `ConversationGenerator.response_end_signal`
(accessory/data/conversation/__init__.py, not included under src/). Per the
spec, the response end signal is the separator string that terminates an
assistant turn under the active style: `sep` for SINGLE, the parity-selected
second separator for the PAIRED (TWO) style. -/
def response_end_signal (c : Conversation) : List Char :=
  match c.sep_style with
  | SeparatorStyle.SINGLE => c.sep
  | SeparatorStyle.TWO => c.sep2

/-- Whether a turn's message makes `Conversation.process` take its
absent-message branch: `message is not None` under `SINGLE`, Python
truthiness (`if message:`) under `TWO`. -/
def msg_absent (style : SeparatorStyle) (m : Option (List Char)) : Bool :=
  match style with
  | SeparatorStyle.SINGLE => m.isNone
  | SeparatorStyle.TWO => !(msg_truthy m)

/-- `Conversation.get_prompt` (lib.py lines 71-72), fuel-indexed: its body
`return self.get_prompt(space_part_of_next_word)['conv']` re-invokes
`get_prompt` itself with the same argument, so a call that is allowed `fuel`
nested invocations produces a value only if the recursive call does. -/
def Conversation.get_prompt (c : Conversation) (flag : Bool) :
    Nat → Option (List Char)
  | 0 => none
  | fuel + 1 =>
    match c.get_prompt flag fuel with
    | some r => some r
    | none => none

section FindSubLemmas

theorem findSub_eq_none_iff (hay pat : List Char) :
    findSub hay pat = none ↔ ∀ j : Nat, pat.isPrefixOf (hay.drop j) = false := by
  induction hay with
  | nil =>
    cases hp : pat.isPrefixOf ([] : List Char) with
    | true =>
      constructor
      · intro h
        rw [findSub, if_pos hp] at h
        cases h
      · intro h
        have h0 := h 0
        rw [List.drop_nil, hp] at h0
        cases h0
    | false =>
      constructor
      · intro _ j
        rw [List.drop_nil]
        exact hp
      · intro _
        rw [findSub, if_neg (by simp [hp])]
  | cons x t ih =>
    cases hp : pat.isPrefixOf (x :: t) with
    | true =>
      constructor
      · intro h
        rw [findSub, if_pos hp] at h
        cases h
      · intro h
        have h0 := h 0
        rw [List.drop_zero, hp] at h0
        cases h0
    | false =>
      rw [findSub, if_neg (by simp [hp]), Option.map_eq_none', ih]
      constructor
      · intro h j
        cases j with
        | zero =>
          rw [List.drop_zero]
          exact hp
        | succ k =>
          rw [List.drop_succ_cons]
          exact h k
      · intro h k
        have hk := h (k + 1)
        rw [List.drop_succ_cons] at hk
        exact hk

theorem isPrefixOf_take_of_le {p s : List Char} {m : Nat}
    (hp : p.isPrefixOf s = true) (hm : p.length ≤ m) :
    p.isPrefixOf (s.take m) = true := by
  rw [List.isPrefixOf_iff_prefix] at hp ⊢
  rw [List.prefix_iff_eq_take] at hp ⊢
  rw [List.take_take, Nat.min_eq_left hm]
  exact hp

end FindSubLemmas

section TrimLemmas

/-- On a non-terminal event whose text does not contain the separator, the
trimmer either suppresses (text shorter than the separator) or removes
exactly the last `len(conv_sep)` characters. -/
theorem stream_trim_eq_of_none (sep : List Char) (e : PartialResult)
    (hfind : findSub e.text sep = none) (heoc : e.end_of_content = false) :
    stream_trim sep e =
      if e.text.length < sep.length then none
      else some ⟨e.text.take (e.text.length - sep.length), false⟩ := by
  unfold stream_trim
  rw [hfind]
  simp [heoc]

/-- On an event whose text contains the separator, the trimmer truncates at
the first occurrence, right-strips, appends a newline and marks terminal. -/
theorem stream_trim_eq_of_some (sep : List Char) (e : PartialResult) (pos : Nat)
    (hfind : findSub e.text sep = some pos) :
    stream_trim sep e = some ⟨rstrip (e.text.take pos) ++ ['\n'], true⟩ := by
  unfold stream_trim
  rw [hfind]
  simp

/-- Every element of the worker's emitted list except possibly the last is
non-terminal: the loop breaks right after the first terminal emission. -/
theorem worker_emit_dropLast_nonterminal (sep : List Char) :
    ∀ (l : List PartialResult) (pr : PartialResult),
      pr ∈ (worker_emit sep l).dropLast → pr.end_of_content = false := by
  intro l
  induction l with
  | nil =>
    intro pr h
    simp [worker_emit] at h
  | cons e rest ih =>
    intro pr h
    rw [worker_emit] at h
    cases htrim : stream_trim sep e with
    | none =>
      rw [htrim] at h
      exact ih pr h
    | some e1 =>
      simp only [htrim] at h
      cases heoc : e1.end_of_content with
      | true =>
        rw [heoc] at h
        simp at h
      | false =>
        rw [heoc] at h
        simp only [Bool.false_eq_true, if_false] at h
        cases hw : worker_emit sep rest with
        | nil =>
          rw [hw] at h
          simp [List.dropLast] at h
        | cons b bs =>
          rw [hw] at h
          have hdl : (e1 :: b :: bs).dropLast = e1 :: (b :: bs).dropLast := rfl
          rw [hdl] at h
          rcases List.mem_cons.mp h with h1 | h2
          · rw [h1]
            exact heoc
          · exact ih pr (hw ▸ h2)

/-- When all incoming events are non-terminal and some event's text contains
the separator, the worker emits exactly one terminal event. -/
theorem worker_emit_one_terminal (sep : List Char) :
    ∀ l : List PartialResult, (∀ e ∈ l, e.end_of_content = false) →
      (∃ e ∈ l, findSub e.text sep ≠ none) →
      (worker_emit sep l).countP (fun pr => pr.end_of_content) = 1 := by
  intro l
  induction l with
  | nil =>
    intro _ hex
    simp at hex
  | cons e rest ih =>
    intro hall hex
    have heoc : e.end_of_content = false := hall e (List.mem_cons_self e rest)
    rw [worker_emit]
    cases hfind : findSub e.text sep with
    | some pos =>
      rw [stream_trim_eq_of_some sep e pos hfind]
      simp [List.countP_cons]
    | none =>
      have hrest : ∃ e' ∈ rest, findSub e'.text sep ≠ none := by
        rcases hex with ⟨e', he', hne⟩
        rcases List.mem_cons.mp he' with h1 | h2
        · exact absurd (h1 ▸ hfind) hne
        · exact ⟨e', h2, hne⟩
      have hallr : ∀ e' ∈ rest, e'.end_of_content = false :=
        fun e' h => hall e' (List.mem_cons_of_mem e h)
      rw [stream_trim_eq_of_none sep e hfind heoc]
      by_cases hlt : e.text.length < sep.length
      · rw [if_pos hlt]
        exact ih hallr hrest
      · rw [if_neg hlt]
        simp only [if_false, Bool.false_eq_true, List.countP_cons]
        rw [ih hallr hrest]

/-- Two successive non-terminal events whose texts are strict
prefix-extensions of each other, neither containing the separator, are
emitted as strict prefix-extensions. -/
theorem stream_trim_growth (sep t1 t2 : List Char)
    (h1 : findSub t1 sep = none) (h2 : findSub t2 sep = none)
    (hL : sep.length ≤ t1.length) (hlt : t1.length < t2.length)
    (hpre : t1 = t2.take t1.length) :
    stream_trim sep ⟨t1, false⟩ = some ⟨t1.take (t1.length - sep.length), false⟩
    ∧ stream_trim sep ⟨t2, false⟩ = some ⟨t2.take (t2.length - sep.length), false⟩
    ∧ t1.take (t1.length - sep.length)
        = (t2.take (t2.length - sep.length)).take (t1.length - sep.length)
    ∧ t1.length - sep.length < t2.length - sep.length := by
  refine ⟨?_, ?_, ?_, ?_⟩
  · rw [stream_trim_eq_of_none sep ⟨t1, false⟩ h1 rfl]
    simp only [if_neg (Nat.not_lt.mpr hL)]
  · rw [stream_trim_eq_of_none sep ⟨t2, false⟩ h2 rfl]
    simp only [if_neg (Nat.not_lt.mpr (Nat.le_of_lt (Nat.lt_of_le_of_lt hL hlt)))]
  · have hmin1 : (t1.length - sep.length) ⊓ t1.length = t1.length - sep.length := by
      omega
    have hmin2 : (t1.length - sep.length) ⊓ (t2.length - sep.length)
        = t1.length - sep.length := by
      omega
    calc t1.take (t1.length - sep.length)
        = (t2.take t1.length).take (t1.length - sep.length) := by rw [← hpre]
      _ = t2.take (t1.length - sep.length) := by rw [List.take_take, hmin1]
      _ = (t2.take (t2.length - sep.length)).take (t1.length - sep.length) := by
          rw [List.take_take, hmin2]
  · omega

end TrimLemmas

section DecodeLoopLemmas

/-- Every event yielded by the decode loop is non-terminal, and the value of
the generator's final `return` statement is always terminal. -/
theorem stream_gen_loop_shape (nt : Nat → Nat) (dec : List Nat → List Char)
    (eos : Nat) (stops : List (List Char)) :
    ∀ (remaining : Nat) (gen : List Nat) (curPos : Nat),
      ((stream_gen_loop nt dec eos stops gen curPos remaining).1.all
        (fun pr => !pr.end_of_content)) = true
      ∧ (stream_gen_loop nt dec eos stops gen curPos remaining).2.end_of_content
          = true := by
  intro remaining
  induction remaining with
  | zero =>
    intro gen curPos
    exact ⟨rfl, rfl⟩
  | succ k ih =>
    intro gen curPos
    rw [stream_gen_loop]
    by_cases heos : nt curPos = eos
    · rw [if_pos heos]
      exact ⟨rfl, rfl⟩
    · rw [if_neg heos]
      cases hstop : first_stop stops (dec (gen ++ [nt curPos])) with
      | some pos =>
        simp [hstop]
      | none =>
        simp only [hstop]
        have hrec := ih (gen ++ [nt curPos]) (curPos + 1)
        refine ⟨?_, hrec.2⟩
        rw [List.all_cons, hrec.1]
        rfl

end DecodeLoopLemmas

section TopPLemmas

/-- The cumulative-sum formulation of the nucleus filter agrees with the
accumulator recursion `keptAux`: an entry's cumulative sum minus the entry
is exactly the sum of the entries before it. -/
theorem zip_cumsum_filterMap_eq_keptAux (p : ℚ) :
    ∀ (l : List ℚ) (acc : ℚ),
      ((cumsumAux acc l).zip l).filterMap
          (fun sx => if sx.1 - sx.2 > p then none else some sx.2)
        = keptAux p acc l := by
  intro l
  induction l with
  | nil =>
    intro acc
    rfl
  | cons x t ih =>
    intro acc
    rw [cumsumAux, keptAux, List.zip_cons_cons, List.filterMap_cons]
    have hx : acc + x - x = acc := by ring
    by_cases hgt : acc > p
    · rw [if_pos (by rw [hx]; exact hgt), if_pos hgt]
      exact ih (acc + x)
    · rw [if_neg (by rw [hx]; exact hgt), if_neg hgt]
      rw [ih (acc + x)]

/-- `top_p_kept` computed through the accumulator recursion. -/
theorem top_p_kept_eq_keptAux (probs : List ℚ) (p : ℚ) :
    top_p_kept probs p = keptAux p 0 (sortDesc probs) := by
  unfold top_p_kept cumsum
  exact zip_cumsum_filterMap_eq_keptAux p (sortDesc probs) 0

/-- Once the running mass strictly exceeds `p`, every later entry of a
non-negative list is masked. -/
theorem keptAux_eq_nil_of_gt (p : ℚ) :
    ∀ (l : List ℚ) (acc : ℚ), (∀ x ∈ l, 0 ≤ x) → p < acc →
      keptAux p acc l = [] := by
  intro l
  induction l with
  | nil =>
    intro acc _ _
    rfl
  | cons x t ih =>
    intro acc hnn hacc
    rw [keptAux, if_pos hacc]
    have hx : 0 ≤ x := hnn x (List.mem_cons_self x t)
    exact ih (acc + x) (fun y hy => hnn y (List.mem_cons_of_mem x hy)) (by linarith)

/-- Kept-mass lower bound: starting from running mass `acc ≤ p`, the kept
entries bring the mass to at least `min p (acc + total)`. -/
theorem keptAux_sum_ge (p : ℚ) :
    ∀ (l : List ℚ) (acc : ℚ), (∀ x ∈ l, 0 ≤ x) → acc ≤ p →
      min p (acc + l.sum) ≤ acc + (keptAux p acc l).sum := by
  intro l
  induction l with
  | nil =>
    intro acc _ _
    simp only [keptAux, List.sum_nil, add_zero]
    exact min_le_right p acc
  | cons x t ih =>
    intro acc hnn hacc
    have hx : 0 ≤ x := hnn x (List.mem_cons_self x t)
    have hnnt : ∀ y ∈ t, 0 ≤ y := fun y hy => hnn y (List.mem_cons_of_mem x hy)
    rw [keptAux, if_neg (by linarith), List.sum_cons, List.sum_cons]
    rcases le_or_lt (acc + x) p with hle | hgt
    · have := ih (acc + x) hnnt hle
      have hmin : min p (acc + (x + t.sum)) ≤ min p (acc + x + t.sum) := by
        rw [← add_assoc]
      linarith [this]
    · rw [keptAux_eq_nil_of_gt p t (acc + x) hnnt hgt]
      have : min p (acc + (x + t.sum)) ≤ p := min_le_left _ _
      simp only [List.sum_nil]
      linarith

/-- Removing the last kept entry brings the mass back to at most `p`: the
sum of all kept entries except the last, plus the initial running mass,
never exceeds `p`. -/
theorem keptAux_dropLast_sum_le (p : ℚ) :
    ∀ (l : List ℚ) (acc : ℚ), (∀ x ∈ l, 0 ≤ x) → acc ≤ p →
      acc + ((keptAux p acc l).dropLast).sum ≤ p := by
  intro l
  induction l with
  | nil =>
    intro acc _ hacc
    simpa [keptAux] using hacc
  | cons x t ih =>
    intro acc hnn hacc
    have hx : 0 ≤ x := hnn x (List.mem_cons_self x t)
    have hnnt : ∀ y ∈ t, 0 ≤ y := fun y hy => hnn y (List.mem_cons_of_mem x hy)
    rw [keptAux, if_neg (by linarith)]
    rcases le_or_lt (acc + x) p with hle | hgt
    · have hrec := ih (acc + x) hnnt hle
      cases hk : keptAux p (acc + x) t with
      | nil =>
        simpa using hacc
      | cons b bs =>
        rw [hk] at hrec
        have hdl : (x :: b :: bs).dropLast = x :: (b :: bs).dropLast := rfl
        rw [hdl, List.sum_cons]
        linarith
    · rw [keptAux_eq_nil_of_gt p t (acc + x) hnnt hgt]
      simpa using hacc

/-- Sorting preserves the total mass. -/
theorem sortDesc_sum (l : List ℚ) : (sortDesc l).sum = l.sum :=
  (List.perm_insertionSort _ l).sum_eq

/-- Sorting preserves membership. -/
theorem sortDesc_mem {x : ℚ} {l : List ℚ} (hx : x ∈ sortDesc l) : x ∈ l :=
  (List.perm_insertionSort _ l).mem_iff.mp hx

end TopPLemmas

section ConversationLemmas

/-- Closed form of the `SINGLE`-style loop on a turn history consisting of
turns with present messages followed by one trailing absent-message turn. -/
theorem process_single_aux_app (asst sep : List Char) (flag : Bool)
    (lastRole : List Char) :
    ∀ (ms : List (List Char × List Char)) (i : Nat),
      process_single_aux asst sep flag (i + ms.length + 1) i
        (ms.map (fun rm => (rm.1, some rm.2)) ++ [(lastRole, none)])
      = Except.ok
          ((ms.map (fun rm => ' ' :: rm.1 ++ ':' :: ' ' :: rm.2 ++ '\n' :: sep)).flatten
            ++ ((' ' :: lastRole ++ [':']) ++ (if flag then [] else [' '])),
           ms.filterMap (fun rm =>
             if rm.1 = asst then some (to_predict_value flag rm.2 ('\n' :: sep))
             else none)) := by
  intro ms
  induction ms with
  | nil =>
    intro i
    simp only [List.map_nil, List.nil_append, List.length_nil]
    rw [process_single_aux, if_pos (by omega), process_single_aux]
    simp
  | cons rm ms ih =>
    intro i
    obtain ⟨r, m⟩ := rm
    simp only [List.map_cons, List.cons_append, List.length_cons]
    rw [process_single_aux]
    have hn : i + (ms.length + 1) + 1 = (i + 1) + ms.length + 1 := by omega
    rw [hn, ih (i + 1)]
    by_cases hr : r = asst <;>
      simp [hr, List.append_assoc, to_predict_value, List.filterMap_cons]

/-- The `SINGLE`-style loop raises `AssertionError` exactly when some
non-last turn has a `None` message. -/
theorem process_single_aux_error_iff (asst sep : List Char) (flag : Bool) :
    ∀ (msgs : List Turn) (i : Nat),
      ((∃ e, process_single_aux asst sep flag (i + msgs.length) i msgs
          = Except.error e)
      ↔ (msgs.dropLast).any (fun t => t.2.isNone) = true) := by
  intro msgs
  induction msgs with
  | nil =>
    intro i
    rw [process_single_aux]
    simp
  | cons ht rest ih =>
    intro i
    obtain ⟨role, m⟩ := ht
    cases m with
    | some msg =>
      rw [process_single_aux]
      simp only [List.length_cons]
      have hn : i + (rest.length + 1) = (i + 1) + rest.length := by omega
      rw [hn]
      constructor
      · rintro ⟨e, he⟩
        cases hrec : process_single_aux asst sep flag ((i + 1) + rest.length)
            (i + 1) rest with
        | error e' =>
          have hih := (ih (i + 1)).mp ⟨e', hrec⟩
          cases rest with
          | nil => simp at hih
          | cons b bs =>
            have hdl : ((role, some msg) :: b :: bs).dropLast
                = (role, some msg) :: (b :: bs).dropLast := rfl
            rw [hdl, List.any_cons, hih]
            simp
        | ok v =>
          obtain ⟨r0, l0⟩ := v
          rw [hrec] at he
          simp at he
      · intro hany
        cases rest with
        | nil => simp at hany
        | cons b bs =>
          have hdl : ((role, some msg) :: b :: bs).dropLast
              = (role, some msg) :: (b :: bs).dropLast := rfl
          rw [hdl, List.any_cons] at hany
          simp only [Option.isNone_some, Bool.false_or] at hany
          rcases (ih (i + 1)).mpr hany with ⟨e, he⟩
          refine ⟨e, ?_⟩
          rw [he]
    | none =>
      cases rest with
      | nil =>
        rw [process_single_aux]
        simp only [List.length_cons, List.length_nil]
        rw [if_pos (by omega), process_single_aux]
        simp
      | cons b bs =>
        rw [process_single_aux]
        simp only [List.length_cons]
        rw [if_neg (by omega)]
        have hdl : ((role, none) :: b :: bs).dropLast
            = (role, none) :: (b :: bs).dropLast := rfl
        rw [hdl, List.any_cons]
        simp

/-- The `TWO`-style loop raises `AssertionError` exactly when some non-last
turn has a falsy (`None` or empty) message. -/
theorem process_two_aux_error_iff (asst sep sep2 : List Char) (flag : Bool) :
    ∀ (msgs : List Turn) (i : Nat),
      ((∃ e, process_two_aux asst sep sep2 flag (i + msgs.length) i msgs
          = Except.error e)
      ↔ (msgs.dropLast).any (fun t => !(msg_truthy t.2)) = true) := by
  intro msgs
  induction msgs with
  | nil =>
    intro i
    rw [process_two_aux]
    simp
  | cons ht rest ih =>
    intro i
    obtain ⟨role, m⟩ := ht
    by_cases htr : msg_truthy m = true
    · rw [process_two_aux, if_pos htr]
      simp only [List.length_cons]
      have hn : i + (rest.length + 1) = (i + 1) + rest.length := by omega
      rw [hn]
      constructor
      · rintro ⟨e, he⟩
        cases hrec : process_two_aux asst sep sep2 flag ((i + 1) + rest.length)
            (i + 1) rest with
        | error e' =>
          have hih := (ih (i + 1)).mp ⟨e', hrec⟩
          cases rest with
          | nil => simp at hih
          | cons b bs =>
            have hdl : ((role, m) :: b :: bs).dropLast
                = (role, m) :: (b :: bs).dropLast := rfl
            rw [hdl, List.any_cons, hih]
            simp
        | ok v =>
          obtain ⟨r0, l0⟩ := v
          rw [hrec] at he
          simp at he
      · intro hany
        cases rest with
        | nil => simp at hany
        | cons b bs =>
          have hdl : ((role, m) :: b :: bs).dropLast
              = (role, m) :: (b :: bs).dropLast := rfl
          rw [hdl, List.any_cons] at hany
          simp only [htr, Bool.not_true, Bool.false_or] at hany
          rcases (ih (i + 1)).mpr hany with ⟨e, he⟩
          refine ⟨e, ?_⟩
          rw [he]
    · rw [process_two_aux, if_neg htr]
      cases rest with
      | nil =>
        simp only [List.length_cons, List.length_nil]
        rw [if_pos (by omega), process_two_aux]
        simp
      | cons b bs =>
        simp only [List.length_cons]
        rw [if_neg (by omega)]
        have hdl : ((role, m) :: b :: bs).dropLast
            = (role, m) :: (b :: bs).dropLast := rfl
        rw [hdl, List.any_cons]
        simp only [Bool.not_eq_true] at htr
        simp [htr]

end ConversationLemmas

section ClaimTheorems

/-- C1 (amended): every event `yield`ed by the decode loop of
`stream_generate` is non-terminal, while the terminal
`PartialResult{end_of_content: true}` is the value of the generator's
`return` statement (the `StopIteration` value), which is always terminal.
A consumer iterating the lazy sequence therefore receives only the
non-terminal events; the terminal event is available only as the return
value. -/
theorem stream_generate_yield_return_split (nt : Nat → Nat)
    (dec : List Nat → List Char) (eos : Nat) (stops : List (List Char))
    (pts : List Nat) (hi : Bool) (iw msl mgl : Nat) :
    ((stream_generate nt dec eos stops pts hi iw msl mgl).1.all
      (fun pr => !pr.end_of_content)) = true
    ∧ (stream_generate nt dec eos stops pts hi iw msl mgl).2.end_of_content
        = true := by
  unfold stream_generate
  exact stream_gen_loop_shape nt dec eos stops _ _ _

/-- C1 (counterexample): with `max_gen_len = 5` and the model forcing the
end-of-sequence id 9 at the third decode step, the iterated (yielded)
sequence consists of exactly the 2 non-terminal events — the consumer never
receives a `PartialResult` with `end_of_content = true`, contradicting the
claim that it receives exactly one such final event; the terminal event is
only the generator's return value. -/
theorem stream_generate_eos_scenario :
    (stream_generate (fun pos => if pos = 4 then 9 else 7)
        (fun l => l.map (fun n => Char.ofNat (48 + n % 10))) 9 [] [1, 2]
        false 0 100 5).1.map PartialResult.end_of_content = [false, false]
    ∧ (stream_generate (fun pos => if pos = 4 then 9 else 7)
        (fun l => l.map (fun n => Char.ofNat (48 + n % 10))) 9 [] [1, 2]
        false 0 100 5).2 = ⟨['7', '7'], true⟩ := by
  constructor
  · rfl
  · rfl

/-- C2 (amended): for a non-terminal event whose text does not contain the
separator, the trimmer suppresses the emission when the text is shorter
than the separator, and otherwise emits the text with exactly the last
`len(end_signal)` characters withheld (not `len(end_signal) - 1` as the
claim states). -/
theorem stream_trim_withholds_sep_length (sep : List Char) (e : PartialResult)
    (hfind : findSub e.text sep = none) (heoc : e.end_of_content = false) :
    stream_trim sep e =
      if e.text.length < sep.length then none
      else some ⟨e.text.take (e.text.length - sep.length), false⟩ :=
  stream_trim_eq_of_none sep e hfind heoc

/-- C2 (witness): concrete instance of the amended trimming rule with
separator of length 2 and text of length 3. -/
theorem stream_trim_withholds_sep_length_witness :
    stream_trim "##".toList ⟨"abc".toList, false⟩ = some ⟨['a'], false⟩ := by
  rw [stream_trim_withholds_sep_length "##".toList ⟨"abc".toList, false⟩
    (by decide) rfl]
  decide

/-- C2 (counterexample): with separator `"###"` (length 3) and non-terminal
text `"abcd"` not containing it, the code emits `"a"` — it withholds 3
characters, not the `len(end_signal) - 1 = 2` the claim states (which would
emit `"ab"`). -/
theorem stream_trim_withhold_counterexample :
    stream_trim "###".toList ⟨"abcd".toList, false⟩ = some ⟨['a'], false⟩
    ∧ (['a'] : List Char) ≠ ['a', 'b'] := by
  constructor
  · rfl
  · decide

/-- C5 (amended): only the primary worker (rank 0), the one whose
`response_queue` is not `None`, posts the `ModelFailure` marker from its
exception handler; every non-primary worker's handler instead raises
`AttributeError` on `None.put(...)` and posts nothing. When a `ModelFailure`
marker is the first item the orchestrator reads, the relay loop raises
exactly one terminal `RuntimeError` after having shown no partial text, and
relays nothing further. -/
theorem worker_failure_protocol :
    (∀ q, worker_handle_exception (rank_response_queue 0 q)
        = Except.ok (q ++ [WorkerMsg.failure]))
    ∧ (∀ r q, worker_handle_exception (rank_response_queue (r + 1) q)
        = Except.error PyExc.attributeError)
    ∧ (∀ rest, relay_stream (WorkerMsg.failure :: rest)
        = ([], RelayEnd.failed)) := by
  refine ⟨fun q => rfl, fun r q => ?_, fun rest => rfl⟩
  rw [rank_response_queue, if_neg (Nat.succ_ne_zero r)]
  rfl

/-- C5 (counterexample): worker 1, a replica whose `response_queue` is
`None` (multi_turn_mm.py line 297), cannot post a `Failure` marker: its
exception handler itself raises `AttributeError`. The claimed scenario in
which worker 1 posts `Failure` on the shared response channel is therefore
unrealisable. -/
theorem replica_failure_counterexample :
    worker_handle_exception (rank_response_queue 1 []) =
      Except.error PyExc.attributeError := by
  rfl

/-- C8 (amended): `stream_generate` performs no validation of
`max_gen_len`. With `w` the effective context window (the window minus the
image-token count when an image is present), the slice
`prompt_tokens[-(w - max_gen_len):]` behaves by regime: when
`max_gen_len < w` the prompt is truncated from the left to its last
`w - max_gen_len` tokens — a change exactly when `len(prompt) +
max_gen_len` exceeds `w`; when `max_gen_len = w` the slice is
`prompt_tokens[-0:]`, which keeps the whole prompt, so no truncation occurs
even though `len(prompt) + max_gen_len` exceeds the window for any
non-empty prompt; when `max_gen_len > w` the slice drops exactly
`max_gen_len - w` leading tokens regardless of the prompt length. In every
regime `total_len = min(w, max_gen_len + len(truncated prompt))`. -/
theorem stream_gen_init_spec (pts : List Nat) (hi : Bool) (iw msl mgl : Nat)
    (w : Int) (hw : w = (msl : Int) - (if hi then (iw : Int) else 0)) :
    ((mgl : Int) < w →
      (stream_gen_init pts hi iw msl mgl).1
          = pts.drop (pts.length - (w - (mgl : Int)).toNat)
      ∧ (((pts.length : Int) + (mgl : Int) ≤ w →
          (stream_gen_init pts hi iw msl mgl).1 = pts)))
    ∧ ((mgl : Int) = w → (stream_gen_init pts hi iw msl mgl).1 = pts)
    ∧ (w < (mgl : Int) →
        (stream_gen_init pts hi iw msl mgl).1
          = pts.drop ((mgl : Int) - w).toNat)
    ∧ (stream_gen_init pts hi iw msl mgl).2
        = min w ((mgl : Int) + ((stream_gen_init pts hi iw msl mgl).1.length : Int)) := by
  have h1 : stream_gen_init pts hi iw msl mgl
      = (pyTailSlice pts (w - (mgl : Int)),
         min w ((mgl : Int) + ((pyTailSlice pts (w - (mgl : Int))).length : Int))) := by
    unfold stream_gen_init
    rw [← hw]
  rw [h1]
  refine ⟨fun hlt => ?_, fun heq => ?_, fun hgt => ?_, rfl⟩
  · unfold pyTailSlice
    rw [if_pos (by omega)]
    refine ⟨rfl, fun hfit => ?_⟩
    have hlen : pts.length - (w - (mgl : Int)).toNat = 0 := by omega
    rw [hlen, List.drop_zero]
  · unfold pyTailSlice
    rw [if_neg (by omega)]
    have hzero : (-(w - (mgl : Int))).toNat = 0 := by omega
    rw [hzero, List.drop_zero]
  · unfold pyTailSlice
    rw [if_neg (by omega)]
    have hneg : (-(w - (mgl : Int))).toNat = ((mgl : Int) - w).toNat := by omega
    rw [hneg]

/-- C8 (witness): a prompt of 4 tokens with window 5 and `max_gen_len = 2`
is truncated from the left to its last 3 tokens. -/
theorem stream_gen_init_spec_witness :
    (stream_gen_init [1, 2, 3, 4] false 0 5 2).1
      = [1, 2, 3, 4].drop ([1, 2, 3, 4].length - ((5 : Int) - (2 : Nat)).toNat) :=
  ((stream_gen_init_spec [1, 2, 3, 4] false 0 5 2 5 (by decide)).1 (by decide)).1

/-- C8 (counterexample): `stream_generate` does not validate
`max_gen_len ≥ 1`: a call with `max_gen_len = 0` proceeds without error —
initialisation returns normally and the degenerate decode loop yields
nothing and returns an empty terminal event. Moreover the claimed
truncation does not happen whenever the prompt would need it: with window
10, `max_gen_len = 10` and a 3-token prompt, `len(prompt) + max_gen_len =
13` exceeds the window, yet `prompt_tokens[-0:]` keeps the whole prompt —
no truncation occurs and no space is reserved for generation beyond
`total_len = 10`. -/
theorem stream_gen_init_no_validation :
    stream_gen_init [1, 2, 3] false 0 10 0 = ([1, 2, 3], 3)
    ∧ stream_generate (fun _ => 0) (fun l => l.map (fun _ => 'x')) 9 []
        [1, 2, 3] false 0 10 0 = ([], ⟨[], true⟩)
    ∧ stream_gen_init [1, 2, 3] false 0 10 10 = ([1, 2, 3], 10) := by
  refine ⟨rfl, rfl, rfl⟩

/-- C10 (confirmed): `Conversation.get_prompt` unconditionally re-invokes
itself with the same argument instead of delegating to `process`: no finite
recursion budget makes it produce a value, so its evaluation never returns
a result. -/
theorem get_prompt_never_returns (c : Conversation) (flag : Bool) :
    ∀ fuel : Nat, c.get_prompt flag fuel = none := by
  intro fuel
  induction fuel with
  | zero => rfl
  | succ k ih =>
    rw [Conversation.get_prompt, ih]

/-- C3 (amended): for an exact distribution (non-negative entries summing
to 1) and `top_p ∈ (0,1]`, the nucleus filter keeps exactly the
descending-sorted entries whose cumulative mass minus the entry is at most
`top_p` (the boundary entry is kept), the kept mass is at least `top_p`,
and removing the last kept entry brings the kept mass down to at most
`top_p` (not strictly below it: equality occurs when the cumulative mass
before the last kept entry equals `top_p` exactly). -/
theorem sample_top_p_kept_mass (probs : List ℚ) (p : ℚ)
    (hnn : ∀ x ∈ probs, 0 ≤ x) (hsum : probs.sum = 1)
    (hp0 : 0 < p) (hp1 : p ≤ 1) :
    p ≤ (top_p_kept probs p).sum
    ∧ ((top_p_kept probs p).dropLast).sum ≤ p := by
  have hnn' : ∀ x ∈ sortDesc probs, 0 ≤ x := fun x hx => hnn x (sortDesc_mem hx)
  have hsum' : (sortDesc probs).sum = 1 := by rw [sortDesc_sum, hsum]
  rw [top_p_kept_eq_keptAux]
  constructor
  · have h := keptAux_sum_ge p (sortDesc probs) 0 hnn' (le_of_lt hp0)
    rw [hsum'] at h
    have hmin : min p ((0 : ℚ) + 1) = p := by
      rw [zero_add]
      exact min_eq_left hp1
    rw [hmin, zero_add] at h
    exact h
  · have h := keptAux_dropLast_sum_le p (sortDesc probs) 0 hnn' (le_of_lt hp0)
    rw [zero_add] at h
    exact h

/-- C3 (witness): for the distribution `[2/3, 1/3]` and `top_p = 1/2` the
kept mass is at least `1/2` and the kept mass without the last kept entry
is at most `1/2`. -/
theorem sample_top_p_kept_mass_witness :
    (1 : ℚ)/2 ≤ (top_p_kept [(2 : ℚ)/3, 1/3] (1/2)).sum
    ∧ ((top_p_kept [(2 : ℚ)/3, 1/3] (1/2)).dropLast).sum ≤ 1/2 :=
  sample_top_p_kept_mass [(2 : ℚ)/3, 1/3] (1/2)
    (by intro x hx; fin_cases hx <;> norm_num) (by norm_num)
    (by norm_num) (by norm_num)

/-- C3 (counterexample): for the distribution `[1/2, 1/2]` and
`top_p = 1/2`, both entries are kept (the second entry's cumulative mass
minus itself equals `1/2`, not exceeding it), and removing the last kept
entry leaves mass exactly `1/2` — not strictly below `top_p` as the claim
states. -/
theorem sample_top_p_boundary_tie :
    top_p_kept [(1 : ℚ)/2, 1/2] (1/2) = [1/2, 1/2]
    ∧ ¬ (((top_p_kept [(1 : ℚ)/2, 1/2] (1/2)).dropLast).sum < 1/2) := by
  constructor
  · norm_num [top_p_kept, sortDesc, cumsum, cumsumAux, List.insertionSort,
      List.orderedInsert, List.zip, List.zipWith, List.filterMap]
  · norm_num [top_p_kept, sortDesc, cumsum, cumsumAux, List.insertionSort,
      List.orderedInsert, List.zip, List.zipWith, List.filterMap, List.dropLast]

/-- C4 (confirmed): under SINGLE style, `process` renders
`system + "\n\n" + sep`, then `" " + role + ": " + message + "\n" + sep`
for each turn with a present message, then `" " + role + ":"` for the
trailing absent-message turn, plus a single trailing space exactly when
`space_part_of_next_word` is false; and on the concrete scenario the
prompt is `"S\n\n### Human: Hi\n### Assistant:"` with response end signal
`"###"` (the end signal is modelled from the spec, its source file not
being under src/). -/
theorem conversation_process_single_render :
    (∀ (sys : List Char) (roles : List Char × List Char)
       (ms : List (List Char × List Char)) (lastRole sep sep2 version : List Char)
       (skip flag : Bool),
      (Conversation.mk sys roles
          (ms.map (fun rm => (rm.1, some rm.2)) ++ [(lastRole, none)])
          SeparatorStyle.SINGLE sep sep2 version skip).process flag
        = Except.ok
            (sys ++ '\n' :: '\n' :: sep
              ++ ((ms.map (fun rm =>
                    ' ' :: rm.1 ++ ':' :: ' ' :: rm.2 ++ '\n' :: sep)).flatten
                ++ ((' ' :: lastRole ++ [':']) ++ (if flag then [] else [' ']))),
             ms.filterMap (fun rm =>
               if rm.1 = roles.2 then some (to_predict_value flag rm.2 ('\n' :: sep))
               else none))
      ∧ response_end_signal
          (Conversation.mk sys roles
            (ms.map (fun rm => (rm.1, some rm.2)) ++ [(lastRole, none)])
            SeparatorStyle.SINGLE sep sep2 version skip) = sep)
    ∧ (Conversation.mk "S".toList ("Human".toList, "Assistant".toList)
          [("Human".toList, some "Hi".toList), ("Assistant".toList, none)]
          SeparatorStyle.SINGLE "###".toList [] [] false).process true
        = Except.ok ("S\n\n### Human: Hi\n### Assistant:".toList, [])
    ∧ response_end_signal
        (Conversation.mk "S".toList ("Human".toList, "Assistant".toList)
          [("Human".toList, some "Hi".toList), ("Assistant".toList, none)]
          SeparatorStyle.SINGLE "###".toList [] [] false) = "###".toList := by
  refine ⟨?_, by rfl, rfl⟩
  intro sys roles ms lastRole sep sep2 version skip flag
  constructor
  · unfold Conversation.process
    simp only [List.length_append, List.length_map, List.length_cons,
      List.length_nil, Nat.zero_add]
    have happ := process_single_aux_app roles.2 sep flag lastRole ms 0
    simp only [Nat.zero_add] at happ
    rw [happ]
  · rfl

/-- C6 (amended): the trimmer's withheld tail protects the separator, but
not in the claim's sense: what holds is that for a non-terminal emission
from text `t` (separator absent from `t`, `len(t) ≥ len(sep)`), the emitted
text is `t` minus its last `len(sep)` characters, and any occurrence of the
separator in any prefix-extension `t2` of `t` begins strictly after the
emitted region, so no emitted character belongs to any separator
occurrence, present or future. (The claim's stronger statement — that the
emitted text never ends with a non-empty proper prefix of the separator —
is false; see the counterexample.) -/
theorem stream_trim_withheld_tail_safe (sep t t2 : List Char) (q : Nat)
    (hlen1 : 1 ≤ sep.length) (hfind : findSub t sep = none)
    (hLt : sep.length ≤ t.length) (hpre : t = t2.take t.length)
    (hocc : sep.isPrefixOf (t2.drop q) = true) :
    stream_trim sep ⟨t, false⟩ = some ⟨t.take (t.length - sep.length), false⟩
    ∧ t.length - sep.length < q := by
  constructor
  · rw [stream_trim_eq_of_none sep ⟨t, false⟩ hfind rfl]
    exact if_neg (Nat.not_lt.mpr hLt)
  · by_contra hq
    push_neg at hq
    have h1 : sep.isPrefixOf ((t2.drop q).take (t.length - q)) = true :=
      isPrefixOf_take_of_le hocc (by omega)
    have h2 : t.drop q = (t2.drop q).take (t.length - q) := by
      conv_lhs => rw [hpre]
      rw [List.drop_take]
    have h3 : sep.isPrefixOf (t.drop q) = true := by
      rw [h2]
      exact h1
    have h4 := (findSub_eq_none_iff t sep).mp hfind q
    rw [h3] at h4
    cases h4

/-- C6 (witness): with separator `"##"` and event text `"a#b"` extended by
`"a#b##"`, the separator occurrence at position 3 lies strictly beyond the
emitted region of length 1. -/
theorem stream_trim_withheld_tail_safe_witness :
    stream_trim "##".toList ⟨"a#b".toList, false⟩
      = some ⟨"a#b".toList.take ("a#b".toList.length - "##".toList.length), false⟩
    ∧ "a#b".toList.length - "##".toList.length < 3 :=
  stream_trim_withheld_tail_safe "##".toList "a#b".toList "a#b##".toList 3
    (by decide) (by decide) (by decide) (by decide) (by decide)

/-- C6 (counterexample): with separator `"###"` and non-terminal event text
`"##ab"` (which does not contain `"###"`), the trimmer emits `"#"` — a
non-empty text that ends with `"#"`, a non-empty prefix of the separator,
refuting the claim that an emitted non-terminal text never ends with a
non-empty prefix of `end_signal`. -/
theorem stream_trim_prefix_suffix_counterexample :
    stream_trim "###".toList ⟨"##ab".toList, false⟩ = some ⟨['#'], false⟩
    ∧ List.isPrefixOf ['#'] "###".toList = true
    ∧ (['#'] : List Char) ≠ [] := by
  refine ⟨rfl, rfl, by decide⟩

/-- C7 (amended): of the items put on the response queue per request, every
item before the last is non-terminal (so nothing follows a terminal item
and there is at most one); when all generator events are non-terminal and
some event's text contains the separator, exactly one terminal item is
emitted; and two successive non-suppressed non-terminal events whose texts
are strict prefix-extensions are emitted in strict prefix order. The
original claim's unconditional strictly-increasing-prefix ordering of all
observed items, and the unconditional existence of a terminal item, are
false (see the counterexample: the terminal item's `rstrip` may retract
text, and a stream ending via end-of-sequence emits no terminal item at
all). -/
theorem worker_stream_order :
    (∀ (sep : List Char) (l : List PartialResult) (pr : PartialResult),
      pr ∈ (worker_emit sep l).dropLast → pr.end_of_content = false)
    ∧ (∀ (sep : List Char) (l : List PartialResult),
        (∀ e ∈ l, e.end_of_content = false) →
        (∃ e ∈ l, findSub e.text sep ≠ none) →
        (worker_emit sep l).countP (fun pr => pr.end_of_content) = 1)
    ∧ (∀ (sep t1 t2 : List Char), findSub t1 sep = none →
        findSub t2 sep = none → sep.length ≤ t1.length →
        t1.length < t2.length → t1 = t2.take t1.length →
        stream_trim sep ⟨t1, false⟩
            = some ⟨t1.take (t1.length - sep.length), false⟩
        ∧ stream_trim sep ⟨t2, false⟩
            = some ⟨t2.take (t2.length - sep.length), false⟩
        ∧ t1.take (t1.length - sep.length)
            = (t2.take (t2.length - sep.length)).take (t1.length - sep.length)
        ∧ t1.length - sep.length < t2.length - sep.length) :=
  ⟨worker_emit_dropLast_nonterminal, worker_emit_one_terminal, stream_trim_growth⟩

/-- C7 (witness): a single event containing the separator yields exactly
one terminal emission, and the prefix-growth clause holds on the concrete
extension `"ab" ⊑ "abc"` with separator `"#"`. -/
theorem worker_stream_order_witness :
    (worker_emit "##".toList [⟨"a##".toList, false⟩]).countP
        (fun pr => pr.end_of_content) = 1
    ∧ "ab".toList.length - "#".toList.length
        < "abc".toList.length - "#".toList.length :=
  ⟨worker_stream_order.2.1 "##".toList [⟨"a##".toList, false⟩]
      (by decide) (by decide),
   (worker_stream_order.2.2 "#".toList "ab".toList "abc".toList
      (by decide) (by decide) (by decide) (by decide) (by decide)).2.2.2⟩

/-- C7 (counterexample): the generator events `"ab    "` then `"ab    ###"`
form a legitimate prefix-extension stream, yet the observed texts are
`"ab "` followed by `"ab\n"` — the first is not a prefix of the second
(the terminal `rstrip` retracted the trailing spaces), refuting the
strictly-increasing-text-prefix ordering of the observed items. -/
theorem worker_stream_prefix_counterexample :
    worker_emit "###".toList
        [⟨"ab    ".toList, false⟩, ⟨"ab    ###".toList, false⟩]
      = [⟨['a', 'b', ' '], false⟩, ⟨['a', 'b', '\n'], true⟩]
    ∧ List.isPrefixOf ['a', 'b', ' '] ['a', 'b', '\n'] = false
    ∧ "ab    ".toList = "ab    ###".toList.take "ab    ".toList.length := by
  refine ⟨rfl, by decide, by decide⟩

/-- C9 (amended): `process` raises (`AssertionError`) exactly when some
non-last turn has an absent message — `None` under SINGLE style, `None` or
the empty string (Python falsy) under TWO style. In particular an empty
turn history does not fail: it renders to `system + "\n\n" + sep` under
SINGLE style (see the counterexample). -/
theorem conversation_process_error_iff (c : Conversation) (flag : Bool) :
    (∃ e, c.process flag = Except.error e)
    ↔ ((c.messages.dropLast).any (fun t => msg_absent c.sep_style t.2)) = true := by
  obtain ⟨sys, roles, msgs, style, sep, sep2, ver, skip⟩ := c
  cases style with
  | SINGLE =>
    have h := process_single_aux_error_iff roles.2 sep flag msgs 0
    simp only [Nat.zero_add] at h
    unfold Conversation.process
    simp only [msg_absent]
    cases haux : process_single_aux roles.2 sep flag msgs.length 0 msgs with
    | error e0 =>
      rw [haux] at h
      simp only [haux]
      constructor
      · intro _
        exact h.mp ⟨e0, rfl⟩
      · intro _
        exact ⟨e0, rfl⟩
    | ok v =>
      obtain ⟨r0, l0⟩ := v
      rw [haux] at h
      simp only [haux]
      constructor
      · rintro ⟨e, he⟩
        simp at he
      · intro hany
        rcases h.mpr hany with ⟨e, he⟩
        simp at he
  | TWO =>
    have h := process_two_aux_error_iff roles.2 sep sep2 flag msgs 0
    simp only [Nat.zero_add] at h
    unfold Conversation.process
    simp only [msg_absent]
    cases haux : process_two_aux roles.2 sep sep2 flag msgs.length 0 msgs with
    | error e0 =>
      rw [haux] at h
      simp only [haux]
      constructor
      · intro _
        exact h.mp ⟨e0, rfl⟩
      · intro _
        exact ⟨e0, rfl⟩
    | ok v =>
      obtain ⟨r0, l0⟩ := v
      rw [haux] at h
      simp only [haux]
      constructor
      · rintro ⟨e, he⟩
        simp at he
      · intro hany
        rcases h.mpr hany with ⟨e, he⟩
        simp at he

/-- C9 (counterexample): an empty turn history does not make `process`
fail: it returns normally with the prompt `system + "\n\n" + sep`,
refuting the claim that `process` fails whenever the list of turns is
empty. -/
theorem conversation_process_empty_ok :
    (Conversation.mk "S".toList ("Human".toList, "Assistant".toList) []
        SeparatorStyle.SINGLE "###".toList [] [] false).process true
      = Except.ok ("S\n\n###".toList, []) := by
  rfl

end ClaimTheorems
